import Mathlib

/-!
Verification of the `vite-plugin-route-builder` repository.

The repository's core compiler `buildGlobRoutes` (in `src/utils/route-builder.ts`)
is not part of the available sources; only its tests, its callers and the design
document describe it.  Definitions for it below are therefore modelled from the
spec (and validated against the inline test snapshots in
`src/__tests__/route-builder.test.ts`).  The code of `src/plugin/route-file.ts`
(`resolveMatchedKey`, `processRoutes`) is available and is embedded directly.

Strings are handled through their underlying `List Char` so that every function
is structurally recursive and kernel-computable.
-/

namespace RouteBuilder

/-! ## Character-list helpers -/

/-- Remove `p` from the front of `s`, if `p` is a leading pattern of `s`. -/
def stripPre : List Char → List Char → Option (List Char)
  | [], s => some s
  | _ :: _, [] => none
  | p :: ps, c :: cs => if p = c then stripPre ps cs else none

/-- Remove `p` from the end of `s`, if `s` ends with `p`. -/
def stripSuf (p s : List Char) : Option (List Char) :=
  (stripPre p.reverse s.reverse).map List.reverse

/-- Does `s` start with the pattern `p`? -/
def startsWithList (p s : List Char) : Bool :=
  (stripPre p s).isSome

/-- Does `s` contain `p` as a contiguous sub-sequence? -/
def hasSub (p : List Char) : List Char → Bool
  | [] => p.isEmpty
  | c :: cs => startsWithList p (c :: cs) || hasSub p cs

/-- Does the string `s` end with the string `suf`? -/
def endsWithStr (s suf : String) : Bool :=
  startsWithList suf.data.reverse s.data.reverse

/-- Split a character list at every `'/'` (JavaScript `String.split('/')`). -/
def splitOnSlash : List Char → List (List Char)
  | [] => [[]]
  | c :: cs =>
    let r := splitOnSlash cs
    if c = '/' then [] :: r
    else
      match r with
      | [] => [[c]]
      | h :: t => (c :: h) :: t

/-- Join character lists with `'/'` (inverse of `splitOnSlash`). -/
def joinSlash : List (List Char) → List Char
  | [] => []
  | [x] => x
  | x :: xs => x ++ '/' :: joinSlash xs

/-! ## Path grammar parser (modelled from the spec, §4.1/§6) -/

/-- Segment kinds of the path grammar. -/
inductive SegKind where
  | literal
  | group
  | dynamic
  | catchAll
deriving DecidableEq, Repr

/-- A parsed path component: the raw component text, the route label it
contributes, and its kind. -/
structure Segment where
  raw : String
  label : String
  kind : SegKind
deriving DecidableEq, Repr

/-- If `cs` is wrapped as `op … cl`, return the inner characters. -/
def wrappedBy (op cl : Char) (cs : List Char) : Option (List Char) :=
  match cs with
  | c :: rest =>
    match rest with
    | [] => none
    | r :: rs =>
      if c = op ∧ (r :: rs).getLast? = some cl then some (r :: rs).dropLast else none
  | [] => none

/-- Modelled from the spec: derivation rules for one path component
(`(name)` → group, `[...name]` → catch-all `*name`, `[name]` → dynamic
`:name`, otherwise literal). -/
def parseSegment (comp : String) : Segment :=
  let cs := comp.data
  match wrappedBy '(' ')' cs with
  | some inner => ⟨comp, String.mk inner, .group⟩
  | none =>
    match wrappedBy '[' ']' cs with
    | some inner =>
      match inner with
      | '.' :: '.' :: '.' :: name => ⟨comp, String.mk ('*' :: name), .catchAll⟩
      | _ => ⟨comp, String.mk (':' :: inner), .dynamic⟩
    | none => ⟨comp, comp, .literal⟩

/-- Special role of the final path component. -/
inductive SpecialRole where
  | layout
  | index
  | regular
deriving DecidableEq, Repr

/-- Modelled from the spec: `layout` and `index` base names are reserved. -/
def roleOf (base : String) : SpecialRole :=
  if base = "layout" then .layout
  else if base = "index" then .index
  else .regular

/-- One parsed route-file entry: its ancestor directory components (raw),
its leaf base name (sync marker and extension stripped), the leaf's special
role, the synchronous-load flag, and the caller's opaque loader handle. -/
structure ParsedEntry (α : Type) where
  dirs : List String
  leafRaw : String
  role : SpecialRole
  sync : Bool
  loader : α

/-- Modelled from the spec (Path Grammar Parser): interpret one raw virtual
path (e.g. `./pages/(main)/settings/profile.sync.tsx`).  The `./pages/`
prefix and the `.tsx` extension are stripped, a `.sync` marker immediately
before the extension sets the synchronous-load flag, and the remaining
components are split on `/`.  An empty or malformed path (an empty
component) is a parse failure. -/
def parsePath (key : String) (loader : α) : Option (ParsedEntry α) :=
  let cs := key.data
  let cs :=
    match stripPre "./pages/".data cs with
    | some r => r
    | none =>
      match stripPre "./".data cs with
      | some r => r
      | none => cs
  let cs := (stripSuf ".tsx".data cs).getD cs
  let res :=
    match stripSuf ".sync".data cs with
    | some r => (r, true)
    | none => (cs, false)
  let comps := splitOnSlash res.1
  if comps.any List.isEmpty then none
  else
    match comps.reverse with
    | [] => none
    | leaf :: revDirs =>
      some ⟨revDirs.reverse.map String.mk, String.mk leaf,
            roleOf (String.mk leaf), res.2, loader⟩

/-! ## Directory index (modelled from the spec, §4.2) -/

/-- A reference to a discovered page file inside a directory record. -/
structure FileRef (α : Type) where
  raw : String
  sync : Bool
  loader : α

mutual
/-- Modelled from the spec (DirectoryRecord): optional layout file,
optional index file, ordered regular leaf files, and child directories
keyed by raw component name in first-reference order. -/
inductive DirTree (α : Type) where
  | mk (layoutF : Option (FileRef α)) (indexF : Option (FileRef α))
       (leaves : List (FileRef α)) (children : DirForest α)

/-- Association list of child directory records, in first-reference order. -/
inductive DirForest (α : Type) where
  | nil
  | cons (name : String) (dir : DirTree α) (tail : DirForest α)
end

variable {α : Type}

def emptyDir : DirTree α := .mk none none [] .nil

def DirTree.layoutF : DirTree α → Option (FileRef α)
  | .mk l _ _ _ => l

def DirTree.indexF : DirTree α → Option (FileRef α)
  | .mk _ i _ _ => i

def DirTree.leaves : DirTree α → List (FileRef α)
  | .mk _ _ lv _ => lv

def DirTree.childrenF : DirTree α → DirForest α
  | .mk _ _ _ cs => cs

/-- Update (or append, preserving first-reference order) the child named `d`. -/
def updForest (d : String) (g : DirTree α → DirTree α) : DirForest α → DirForest α
  | .nil => .cons d (g emptyDir) .nil
  | .cons n t rest =>
    if n = d then .cons n (g t) rest else .cons n t (updForest d g rest)

/-- Modelled from the spec (Directory Index Builder): insert one parsed
entry at the directory identified by its ancestor segments; `layout`/`index`
roles use last-write-wins, regular leaves are appended. -/
def insertEntry (f : FileRef α) (role : SpecialRole) : List String → DirTree α → DirTree α
  | [], .mk l i lv cs =>
    match role with
    | .layout => .mk (some f) i lv cs
    | .index => .mk l (some f) lv cs
    | .regular => .mk l i (lv ++ [f]) cs
  | d :: ds, .mk l i lv cs => .mk l i lv (updForest d (fun t => insertEntry f role ds t) cs)

/-- Modelled from the spec: aggregate all parsed entries into the directory
record tree, in input order. -/
def buildDirTree (es : List (ParsedEntry α)) : DirTree α :=
  es.foldl (fun t e => insertEntry ⟨e.leafRaw, e.sync, e.loader⟩ e.role e.dirs t) emptyDir

/-! ## Output route nodes -/

/-- The per-node metadata slot (the `ROUTE_BUILDER_HANDLE` symbol payload):
source path `fs`, absolute `fullPath`, and the optional sync flag. -/
structure Meta where
  fs : String
  fullPath : String
  isSync : Option Bool
deriving DecidableEq, Repr

mutual
/-- Modelled from the spec (RouteNode / ExtendedRouteObject): relative `path`,
optional lazy loader handle, whether the `children` field is present, the
ordered children, and the metadata slot. -/
inductive RouteNode (α : Type) where
  | mk (path : String) (lazyFn : Option α) (hasChildren : Bool)
       (children : RouteForest α) (meta : Meta)

/-- An ordered sequence of route nodes. -/
inductive RouteForest (α : Type) where
  | nil
  | cons (head : RouteNode α) (tail : RouteForest α)
end

def RouteNode.path : RouteNode α → String
  | .mk p _ _ _ _ => p

def RouteNode.lazyFn : RouteNode α → Option α
  | .mk _ lz _ _ _ => lz

def RouteNode.hasChildren : RouteNode α → Bool
  | .mk _ _ hc _ _ => hc

def RouteNode.children : RouteNode α → RouteForest α
  | .mk _ _ _ cs _ => cs

def RouteNode.meta : RouteNode α → Meta
  | .mk _ _ _ _ m => m

@[simp] theorem RouteNode.path_mk (p : String) (lz : Option α) (hc : Bool)
    (cs : RouteForest α) (m : Meta) : (RouteNode.mk p lz hc cs m).path = p := rfl

@[simp] theorem RouteNode.lazyFn_mk (p : String) (lz : Option α) (hc : Bool)
    (cs : RouteForest α) (m : Meta) : (RouteNode.mk p lz hc cs m).lazyFn = lz := rfl

@[simp] theorem RouteNode.hasChildren_mk (p : String) (lz : Option α) (hc : Bool)
    (cs : RouteForest α) (m : Meta) : (RouteNode.mk p lz hc cs m).hasChildren = hc := rfl

@[simp] theorem RouteNode.children_mk (p : String) (lz : Option α) (hc : Bool)
    (cs : RouteForest α) (m : Meta) : (RouteNode.mk p lz hc cs m).children = cs := rfl

@[simp] theorem RouteNode.meta_mk (p : String) (lz : Option α) (hc : Bool)
    (cs : RouteForest α) (m : Meta) : (RouteNode.mk p lz hc cs m).meta = m := rfl

def RouteForest.ofList : List (RouteNode α) → RouteForest α
  | [] => .nil
  | h :: t => .cons h (RouteForest.ofList t)

def RouteForest.toList : RouteForest α → List (RouteNode α)
  | .nil => []
  | .cons h t => h :: t.toList

def RouteForest.isNil : RouteForest α → Bool
  | .nil => true
  | .cons _ _ => false

/-! ## Sibling sequencer (modelled from the spec, §4.5) -/

/-- A synthesized child node, tagged with whether it came from a `Group`
segment and with the group's inner name (used only by the sequencer). -/
structure Tagged (α : Type) where
  isGroup : Bool
  gname : String
  node : RouteNode α

/-- Kernel-computable lexicographic comparison of strings by character
code (the behavior of JavaScript's default string `<`). -/
def strLtB : List Char → List Char → Bool
  | [], [] => false
  | [], _ :: _ => true
  | _ :: _, [] => false
  | a :: as, b :: bs =>
    if a.toNat < b.toNat then true
    else if b.toNat < a.toNat then false
    else strLtB as bs

def strLeB (a b : List Char) : Bool := !(strLtB b a)

theorem strLtB_asymm : ∀ {x y : List Char}, strLtB x y = true → strLtB y x = false
  | [], [], h => by simp [strLtB] at h
  | [], _ :: _, _ => rfl
  | _ :: _, [], h => by simp [strLtB] at h
  | a :: as, b :: bs, h => by
    simp only [strLtB] at h ⊢
    by_cases hab : a.toNat < b.toNat
    · have h1 : ¬ b.toNat < a.toNat := by omega
      simp [hab, h1]
    · by_cases hba : b.toNat < a.toNat
      · simp [hab, hba] at h
      · simp [hab, hba] at h
        simp [hab, hba, strLtB_asymm h]

theorem strLtB_false_trans :
    ∀ (x y z : List Char), strLtB y x = false → strLtB z y = false → strLtB z x = false
  | [], _, z, _, _ => by cases z <;> rfl
  | _ :: _, y, [], h1, h2 => by
    cases y with
    | nil => simp [strLtB] at h1
    | cons c cs => simp [strLtB] at h2
  | x :: xs, y, z :: zs, h1, h2 => by
    cases y with
    | nil => simp [strLtB] at h1
    | cons y ys =>
      simp only [strLtB] at h1 h2 ⊢
      by_cases hyx : y.toNat < x.toNat
      · simp [hyx] at h1
      · by_cases hzy : z.toNat < y.toNat
        · simp [hzy] at h2
        · by_cases hzx : z.toNat < x.toNat
          · omega
          · by_cases hxz : x.toNat < z.toNat
            · simp [hzx, hxz]
            · have hxy : ¬ x.toNat < y.toNat := by omega
              have hyz : ¬ y.toNat < z.toNat := by omega
              simp only [hyx, hxy, if_false, ite_false] at h1
              simp only [hzy, hyz, if_false, ite_false] at h2
              simp only [hzx, hxz, if_false, ite_false]
              · exact strLtB_false_trans xs ys zs (by simpa using h1) (by simpa using h2)

/-- Label order used for non-group siblings: alphabetical, with the empty
label (index nodes) ordered after every non-empty label (as pinned by the
repository's snapshot tests). -/
def labelLE (a b : String) : Prop :=
  if b = "" then True else if a = "" then False else strLeB a.data b.data = true

instance decLabelLE (a b : String) : Decidable (labelLE a b) := by
  unfold labelLE
  split
  · exact isTrue trivial
  · split
    · exact isFalse (fun h => h)
    · exact inferInstance

/-- Sequencer order on tagged non-group siblings. -/
def taggedLE (x y : Tagged α) : Prop := labelLE x.node.path y.node.path

instance decTaggedLE (x y : Tagged α) : Decidable (taggedLE x y) :=
  decLabelLE x.node.path y.node.path

theorem strLeB_total (a b : List Char) : strLeB a b = true ∨ strLeB b a = true := by
  unfold strLeB
  by_cases h : strLtB b a = true
  · right
    rw [strLtB_asymm h]
    rfl
  · left
    rw [Bool.not_eq_true] at h
    rw [h]
    rfl

theorem labelLE_total (a b : String) : labelLE a b ∨ labelLE b a := by
  unfold labelLE
  by_cases hb : b = ""
  · left; rw [if_pos hb]; trivial
  · by_cases ha : a = ""
    · right; rw [if_pos ha]; trivial
    · rw [if_neg hb, if_neg ha, if_neg ha, if_neg hb]
      exact strLeB_total a.data b.data

theorem labelLE_trans {a b c : String} (h₁ : labelLE a b) (h₂ : labelLE b c) :
    labelLE a c := by
  unfold labelLE at *
  by_cases hc : c = ""
  · rw [if_pos hc]; trivial
  · rw [if_neg hc] at h₂ ⊢
    by_cases hb : b = ""
    · rw [if_pos hb] at h₂; exact h₂.elim
    · rw [if_neg hb] at h₂
      rw [if_neg hb] at h₁
      by_cases ha : a = ""
      · rw [if_pos ha] at h₁; exact h₁.elim
      · rw [if_neg ha] at h₁ ⊢
        unfold strLeB at h₁ h₂ ⊢
        rw [Bool.not_eq_eq_eq_not, Bool.not_true] at h₁ h₂ ⊢
        exact strLtB_false_trans a.data b.data c.data h₁ h₂

instance : IsTotal (Tagged α) taggedLE := ⟨fun x y => labelLE_total x.node.path y.node.path⟩

instance : IsTrans (Tagged α) taggedLE := ⟨fun _ _ _ => labelLE_trans⟩

/-- Modelled from the spec: strip surrounding parentheses from an
ordering-config entry, if present. -/
def normalizeGroupName (s : String) : String :=
  match wrappedBy '(' ')' s.data with
  | some inner => String.mk inner
  | none => s

/-- Modelled from the spec: order group siblings — groups named in the
(normalized) ordering list first, in list order; remaining groups keep
their first-discovery order.  Unknown names are silently ignored. -/
def pickGroups : List String → List (Tagged α) → List (Tagged α)
  | [], gs => gs
  | n :: ns, gs =>
    match gs.find? (fun g => g.gname == n) with
    | some g => g :: pickGroups ns (gs.filter (fun g2 => g2.gname != n))
    | none => pickGroups ns gs

/-- Modelled from the spec (Sibling Sequencer): non-group siblings first,
stably sorted by label; then group siblings ordered by `pickGroups`. -/
def sequencedTags (names : List String) (items : List (Tagged α)) : List (Tagged α) :=
  List.insertionSort taggedLE (items.filter fun x => !x.isGroup)
    ++ pickGroups names (items.filter fun x => x.isGroup)

/-- The sequenced children of one directory, with the tags dropped. -/
def sequenceTagged (names : List String) (items : List (Tagged α)) : List (RouteNode α) :=
  (sequencedTags names items).map Tagged.node

/-! ## Node synthesizer (modelled from the spec, §4.3) -/

mutual
/-- Modelled from the spec (Node Synthesizer): the sequenced child nodes of
the directory record `t`, where `dirFs` is the directory's source-path
context and `fullP` its absolute route path.  The index file yields an index
node at `path = ""`, each regular leaf file yields a leaf node at its
segment label, and each child directory yields its node(s) recursively. -/
def synthChildren (names : List String) (dirFs fullP : String) : DirTree α → List (RouteNode α)
  | .mk _ idxF leaves children =>
    let idxT : List (Tagged α) :=
      match idxF with
      | some f =>
        [⟨false, "", .mk "" (some f.loader) false .nil
            ⟨dirFs ++ "/index/", fullP ++ "/", some f.sync⟩⟩]
      | none => []
    let leafT : List (Tagged α) := leaves.map (fun f =>
      let seg := parseSegment f.raw
      ⟨false, "", .mk seg.label (some f.loader) false .nil
          ⟨dirFs ++ "/" ++ f.raw ++ "/" ++ seg.label, fullP ++ "/" ++ seg.label, some f.sync⟩⟩)
    let subT := synthForest names dirFs fullP children
    sequenceTagged names (idxT ++ leafT ++ subT)

/-- Modelled from the spec: synthesize the tagged node of every child
directory.  A `Group` child merges its layout into a single node at
`path = ""`; any other child gets a loaderless wrapper node at its segment
label whose sole child is the layout-backed inner node (when a layout
exists), with all further children under the inner node. -/
def synthForest (names : List String) (dirFs fullP : String) : DirForest α → List (Tagged α)
  | .nil => []
  | .cons name sub rest =>
    let seg := parseSegment name
    let subFs := dirFs ++ "/" ++ name
    let t : Tagged α :=
      if seg.kind = .group then
        let kids := RouteForest.ofList (synthChildren names subFs fullP sub)
        match sub.layoutF with
        | some f => ⟨true, seg.label, .mk "" (some f.loader) true kids ⟨subFs, fullP, some f.sync⟩⟩
        | none => ⟨true, seg.label, .mk "" none true kids ⟨subFs, fullP, none⟩⟩
      else
        let fullP2 := fullP ++ "/" ++ seg.label
        let kids := RouteForest.ofList (synthChildren names subFs fullP2 sub)
        let inner : RouteForest α :=
          match sub.layoutF with
          | some f =>
            .cons (.mk "" (some f.loader) true kids ⟨subFs ++ "/layout", fullP2, some f.sync⟩) .nil
          | none => kids
        ⟨false, "", .mk seg.label none true inner ⟨subFs ++ "/" ++ seg.label, fullP2, none⟩⟩
    t :: synthForest names dirFs fullP rest
end

/-! ## Sync propagator (modelled from the spec, §4.4) -/

/-- Is some node at the top level of the forest marked sync? -/
def anySyncTrue : RouteForest α → Bool
  | .nil => false
  | .cons h t => (h.meta.isSync == some true) || anySyncTrue t

mutual
/-- Modelled from the spec (Sync Propagator): bottom-up pass; a node's
effective `isSync` becomes `true` if its own flag is `true` or any child's
effective `isSync` is `true`; otherwise the field is left unchanged. -/
def propagate : RouteNode α → RouteNode α
  | .mk p lz hc cs m =>
    let cs2 := propagateForest cs
    let eff := (m.isSync == some true) || anySyncTrue cs2
    .mk p lz hc cs2 { m with isSync := if eff then some true else m.isSync }

def propagateForest : RouteForest α → RouteForest α
  | .nil => .nil
  | .cons h t => .cons (propagate h) (propagateForest t)
end

/-! ## Compile entry point (modelled from the spec, §2/§5) -/

/-- The options record of `buildGlobRoutes`. -/
structure BuildOptions where
  segmentGroupOrder : List String := []

/-- Parse every input entry; any parse failure aborts the whole compile. -/
def buildEntries : List (String × α) → Option (List (ParsedEntry α))
  | [] => some []
  | (k, l) :: rest =>
    match parsePath k l, buildEntries rest with
    | some e, some es => some (e :: es)
    | _, _ => none

/-- Modelled from the spec (compile entry point `buildGlobRoutes`, whose
implementation file `src/utils/route-builder.ts` is not in the available
sources): parse all entries, build the directory index, synthesize and
sequence the node tree, and run the sync propagator.  The input map is
taken as a list in key-insertion order. -/
def buildGlobRoutes (globObject : List (String × α)) (opts : BuildOptions) :
    Option (List (RouteNode α)) :=
  match buildEntries globObject with
  | none => none
  | some es =>
    let names := opts.segmentGroupOrder.map normalizeGroupName
    let t := buildDirTree es
    let kids := synthChildren names "./pages" "" t
    let top :=
      match t.layoutF with
      | some f =>
        [RouteNode.mk "" (some f.loader) true (.ofList kids) ⟨"./pages/layout", "", some f.sync⟩]
      | none => kids
    some (top.map propagate)

/-! ## Observers used by the theorems -/

mutual
/-- Find the metadata of the first node with source path `fs` (depth-first),
as the repository's test helper `findRouteByFs` does. -/
def findFsNode (fs : String) : RouteNode α → Option Meta
  | .mk _ _ _ cs m => if m.fs = fs then some m else findFsForest fs cs

def findFsForest (fs : String) : RouteForest α → Option Meta
  | .nil => none
  | .cons h t =>
    match findFsNode fs h with
    | some r => some r
    | none => findFsForest fs t
end

/-- Find a node's metadata by source path in a compile result. -/
def lookFs (o : Option (List (RouteNode α))) (fs : String) : Option Meta :=
  match o with
  | some l => findFsForest fs (RouteForest.ofList l)
  | none => none

/-- The source paths of the root nodes of a compile result, in order. -/
def rootFs (o : Option (List (RouteNode α))) : List String :=
  match o with
  | some l => l.map (fun n => n.meta.fs)
  | none => []

mutual
/-- The recursive `fullPath` concatenation rule of spec §3, checked over the
observable fields of an output node: a child contributes nothing when its
`path` is empty and it has a `children` field (group and layout nodes),
a trailing `/` when its `path` is empty without children (index nodes), and
`"/" ++ path` otherwise. -/
def checkFullPaths (ctx : String) : RouteNode α → Bool
  | .mk p _ hc cs m =>
    let expect := if p = "" then (if hc then ctx else ctx ++ "/") else ctx ++ "/" ++ p
    (m.fullPath = expect) && checkForest expect cs

def checkForest (ctx : String) : RouteForest α → Bool
  | .nil => true
  | .cons h t => checkFullPaths ctx h && checkForest ctx t
end

/-- Every root of a compile result satisfies the `fullPath` rule from the
empty root context. -/
def allFullPathsOk (o : Option (List (RouteNode α))) : Bool :=
  ((fun l => l.all (checkFullPaths "")) <$> o).getD true

mutual
/-- Effective synchronous-load requirement of a (pre-propagation) node: its
own flag, or any descendant's. -/
def effSync : RouteNode α → Bool
  | .mk _ _ _ cs m => (m.isSync == some true) || effSyncForest cs

def effSyncForest : RouteForest α → Bool
  | .nil => false
  | .cons h t => effSync h || effSyncForest t
end

mutual
/-- Well-formedness of a directory record: every child component name is
non-empty (guaranteed by the parser, which rejects empty components). -/
def wfDir : DirTree α → Bool
  | .mk _ _ _ cs => wfForest cs

def wfForest : DirForest α → Bool
  | .nil => true
  | .cons n t rest => (n ≠ "" : Bool) && wfDir t && wfForest rest
end

/-! ## `src/plugin/route-file.ts` (embedded from the source) -/

/-- JavaScript-style truthy lookup `fileToImportMap[key]` on a string
record: present and non-empty. -/
def lookupStr (m : List (String × String)) (k : String) : Option String :=
  (m.find? (fun p => p.1 == k)).map Prod.snd

def lookupTruthy (m : List (String × String)) (k : String) : Bool :=
  match lookupStr m k with
  | some v => v ≠ ""
  | none => false

/-- `Map.has` on a string map. -/
def hasKey (m : List (String × String)) (k : String) : Bool :=
  m.any (fun p => p.1 == k)

/-- The effect of `fsPath.replace(/\/:[^/]+(?:\/.*)?$/, '')`: cut at the
first `/:` that is followed by at least one non-`/` character. -/
def stripDyn : List Char → List Char
  | [] => []
  | c :: cs =>
    if c = '/' then
      match cs with
      | ':' :: d :: _ => if d ≠ '/' then [] else c :: stripDyn cs
      | _ => c :: stripDyn cs
    else c :: stripDyn cs

/-- Embedded from `src/plugin/route-file.ts` (`resolveMatchedKey`): resolve
a node's `fs` metadata path to a key of `fileToImportMap`, trying the direct
file, a `layout` file, an `index` file, and the three corrective fallbacks
(trailing slash, dynamic-segment suffix, duplicated final component). -/
def resolveMatchedKey (fsPath : String) (isSync : Option Bool)
    (fileToImportMap : List (String × String)) : Option String :=
  if (isSync == some true) && lookupTruthy fileToImportMap (fsPath ++ ".sync.tsx") then
    some (fsPath ++ ".sync.tsx")
  else if lookupTruthy fileToImportMap (fsPath ++ ".tsx") then
    some (fsPath ++ ".tsx")
  else if (isSync == some true) && lookupTruthy fileToImportMap (fsPath ++ "/layout.sync.tsx") then
    some (fsPath ++ "/layout.sync.tsx")
  else if lookupTruthy fileToImportMap (fsPath ++ "/layout.tsx") then
    some (fsPath ++ "/layout.tsx")
  else if (isSync == some true) && lookupTruthy fileToImportMap (fsPath ++ "/index.sync.tsx") then
    some (fsPath ++ "/index.sync.tsx")
  else if lookupTruthy fileToImportMap (fsPath ++ "/index.tsx") then
    some (fsPath ++ "/index.tsx")
  else if endsWithStr fsPath "/" then
    if (isSync == some true) && lookupTruthy fileToImportMap
        (String.mk fsPath.data.dropLast ++ "/index.sync.tsx") then
      some (String.mk fsPath.data.dropLast ++ "/index.sync.tsx")
    else if lookupTruthy fileToImportMap (String.mk fsPath.data.dropLast ++ "/index.tsx") then
      some (String.mk fsPath.data.dropLast ++ "/index.tsx")
    else if (isSync == some true) && lookupTruthy fileToImportMap
        (String.mk fsPath.data.dropLast ++ ".sync.tsx") then
      some (String.mk fsPath.data.dropLast ++ ".sync.tsx")
    else if lookupTruthy fileToImportMap (String.mk fsPath.data.dropLast ++ ".tsx") then
      some (String.mk fsPath.data.dropLast ++ ".tsx")
    else none
  else if hasSub "/:".data fsPath.data then
    if (isSync == some true) && lookupTruthy fileToImportMap
        (String.mk (stripDyn fsPath.data) ++ ".sync.tsx") then
      some (String.mk (stripDyn fsPath.data) ++ ".sync.tsx")
    else if lookupTruthy fileToImportMap (String.mk (stripDyn fsPath.data) ++ ".tsx") then
      some (String.mk (stripDyn fsPath.data) ++ ".tsx")
    else none
  else
    match (splitOnSlash fsPath.data).reverse with
    | lastPart :: secondLastPart :: _ =>
      if lastPart = secondLastPart then
        if (isSync == some true) && lookupTruthy fileToImportMap
            (String.mk (joinSlash (splitOnSlash fsPath.data).dropLast) ++ ".sync.tsx") then
          some (String.mk (joinSlash (splitOnSlash fsPath.data).dropLast) ++ ".sync.tsx")
        else if lookupTruthy fileToImportMap
            (String.mk (joinSlash (splitOnSlash fsPath.data).dropLast) ++ ".tsx") then
          some (String.mk (joinSlash (splitOnSlash fsPath.data).dropLast) ++ ".tsx")
        else none
      else none
    | _ => none

/-- The `lazy` field of a serializable route: absent, the original
(unmatched) function, or a generated lazy-function placeholder. -/
inductive SerLazy where
  | absent
  | origFn
  | lazyRef (name : String)
deriving DecidableEq, Repr

mutual
/-- A `SerializableRouteObject` as produced by `processRoutes`: the
`metadata` component models the `ROUTE_BUILDER_HANDLE` entry, which the
serializer must not retain. -/
inductive SerRoute where
  | mk (path : String) (lazyFn : SerLazy)
       (component loaderRef handleRef : Option String)
       (hasChildren : Bool) (children : SerForest) (metadata : Option Meta)

inductive SerForest where
  | nil
  | cons (head : SerRoute) (tail : SerForest)
end

def SerRoute.metadata : SerRoute → Option Meta
  | .mk _ _ _ _ _ _ _ md => md

def SerRoute.path : SerRoute → String
  | .mk p _ _ _ _ _ _ _ => p

mutual
/-- Embedded from `src/plugin/route-file.ts` (`processRoutes`): copy each
route; a lazy route whose metadata resolves through `resolveMatchedKey` gets
sync `Component`/`loader`/`handle` placeholders or a lazy placeholder (or
drops `lazy`); the `ROUTE_BUILDER_HANDLE` metadata entry is deleted; children
are processed recursively. -/
def processRoute (fileMap syncMap lazyMap : List (String × String)) :
    RouteNode α → SerRoute
  | .mk p lz hc cs m =>
    let wired : SerLazy × Option String × Option String × Option String :=
      if lz.isSome && (m.fs ≠ "" : Bool) then
        match resolveMatchedKey m.fs m.isSync fileMap with
        | some k =>
          if (m.isSync == some true) && hasKey syncMap k then
            let nm := (lookupStr syncMap k).getD ""
            (.absent, some ("__SYNC_" ++ nm ++ ".Component__"),
             some ("__SYNC_" ++ nm ++ ".loader__"), some ("__SYNC_" ++ nm ++ ".handle__"))
          else if hasKey lazyMap k then
            (.lazyRef ("__LAZY_" ++ (lookupStr lazyMap k).getD "" ++ "__"), none, none, none)
          else (.absent, none, none, none)
        | none => (.absent, none, none, none)
      else ((if lz.isSome then .origFn else .absent), none, none, none)
    .mk p wired.1 wired.2.1 wired.2.2.1 wired.2.2.2 hc
      (processRoutes fileMap syncMap lazyMap cs) none

def processRoutes (fileMap syncMap lazyMap : List (String × String)) :
    RouteForest α → SerForest
  | .nil => .nil
  | .cons h t =>
    .cons (processRoute fileMap syncMap lazyMap h) (processRoutes fileMap syncMap lazyMap t)
end

mutual
/-- Does every node of a serialized forest carry no metadata entry? -/
def serNoMetaRoute : SerRoute → Bool
  | .mk _ _ _ _ _ _ cs md => md.isNone && serNoMetaForest cs

def serNoMetaForest : SerForest → Bool
  | .nil => true
  | .cons h t => serNoMetaRoute h && serNoMetaForest t
end

mutual
/-- The path/children skeleton of a serialized route. -/
def serShape : SerRoute → RouteNode Unit
  | .mk p _ _ _ _ hc cs _ => .mk p none hc (serShapeForest cs) ⟨"", "", none⟩

def serShapeForest : SerForest → RouteForest Unit
  | .nil => .nil
  | .cons h t => .cons (serShape h) (serShapeForest t)
end

mutual
/-- The path/children skeleton of a route-builder node. -/
def routeShape : RouteNode α → RouteNode Unit
  | .mk p _ hc cs _ => .mk p none hc (routeShapeForest cs) ⟨"", "", none⟩

def routeShapeForest : RouteForest α → RouteForest Unit
  | .nil => .nil
  | .cons h t => .cons (routeShape h) (routeShapeForest t)
end

/-! ## Concrete inputs taken from the repository's tests -/

/-- The sync-propagation test input (`route-builder.test.ts`, "should
propagate sync to parent layout when subtree has sync routes"). -/
def syncEntries : List (String × Nat) :=
  [("./pages/settings/layout.tsx", 0),
   ("./pages/settings/profile.sync.tsx", 1),
   ("./pages/(main)/layout.tsx", 2),
   ("./pages/(main)/profile.sync.tsx", 3)]

/-- The `add/layout`, `add/index` input of the default-order snapshot test. -/
def addEntries : List (String × Nat) :=
  [("./pages/add/layout.tsx", 0), ("./pages/add/index.tsx", 1)]

/-- The four top-level entries of the non-group-precedence property, in the
snapshot test's key-insertion order. -/
def topLevelEntries : List (String × Nat) :=
  [("./pages/(external)/layout.tsx", 0),
   ("./pages/(main)/layout.tsx", 1),
   ("./pages/preview.tsx", 2),
   ("./pages/add/layout.tsx", 3)]

/-- The four groups of the partial-custom-order snapshot test. -/
def partialOrderEntries : List (String × Nat) :=
  [("./pages/(admin)/layout.tsx", 0),
   ("./pages/(external)/layout.tsx", 1),
   ("./pages/(main)/layout.tsx", 2),
   ("./pages/(settings)/layout.tsx", 3)]

/-- The three groups of the parentheses-format snapshot test. -/
def parenOrderEntries : List (String × Nat) :=
  [("./pages/(external)/layout.tsx", 0),
   ("./pages/(main)/layout.tsx", 1),
   ("./pages/(login)/layout.tsx", 2)]

/-! ## Helper lemmas -/

theorem anySyncTrue_propagateForest (cs : RouteForest α) :
    anySyncTrue (propagateForest cs) = true ↔
      ∃ c ∈ cs.toList, (propagate c).meta.isSync = some true := by
  match cs with
  | .nil => simp [propagateForest, anySyncTrue, RouteForest.toList]
  | .cons h t =>
    have ih := anySyncTrue_propagateForest t
    simp only [propagateForest, anySyncTrue, RouteForest.toList, Bool.or_eq_true,
      beq_iff_eq, List.mem_cons, ih]
    constructor
    · rintro (hh | ⟨c, hc, hc2⟩)
      · exact ⟨h, Or.inl rfl, hh⟩
      · exact ⟨c, Or.inr hc, hc2⟩
    · rintro ⟨c, hc | hc, hc2⟩
      · exact Or.inl (hc ▸ hc2)
      · exact Or.inr ⟨c, hc, hc2⟩

theorem propagate_isSync_iff (n : RouteNode α) :
    (propagate n).meta.isSync = some true ↔
      (n.meta.isSync = some true ∨
        ∃ c ∈ n.children.toList, (propagate c).meta.isSync = some true) := by
  match n with
  | .mk p lz hc cs m =>
    simp only [propagate, RouteNode.meta_mk, RouteNode.children_mk]
    by_cases hown : m.isSync = some true
    · simp [hown]
    · have hb : (m.isSync == some true) = false := by
        simp [beq_iff_eq, hown]
      by_cases hany : anySyncTrue (propagateForest cs) = true
      · have hex := (anySyncTrue_propagateForest cs).mp hany
        simp [hb, hany, hex]
      · rw [Bool.not_eq_true] at hany
        have hex : ¬ ∃ c ∈ cs.toList, (propagate c).meta.isSync = some true := by
          rw [← anySyncTrue_propagateForest cs, hany]; simp
        simp [hb, hany, hown, hex]

/-! ## Claim theorems -/

/-- C2.  After the bottom-up sync-propagation pass, a node's effective
`isSync` is `true` iff its own flag is `true` or some child's effective
`isSync` is `true`; in particular, for `settings/layout` (not sync) plus
`settings/profile.sync`, the settings layout node's `metadata.isSync` ends
up `true`, and for the root-level group `(main)/layout` (not sync) plus
`(main)/profile.sync`, the group node's `metadata.isSync` ends up `true`. -/
theorem c2_sync_propagation :
    (∀ (α : Type) (n : RouteNode α),
      (propagate n).meta.isSync = some true ↔
        (n.meta.isSync = some true ∨
          ∃ c ∈ n.children.toList, (propagate c).meta.isSync = some true))
    ∧ (lookFs (buildGlobRoutes syncEntries ⟨[]⟩) "./pages/settings/layout").map Meta.isSync
        = some (some true)
    ∧ (lookFs (buildGlobRoutes syncEntries ⟨[]⟩) "./pages/(main)").map Meta.isSync
        = some (some true) :=
  ⟨fun _ n => propagate_isSync_iff n, by decide, by decide⟩

/-- The compile entry point only consumes the ordering configuration through
`normalizeGroupName`. -/
theorem buildGlobRoutes_normalize (entries : List (String × α)) (cfg1 cfg2 : List String)
    (h : cfg1.map normalizeGroupName = cfg2.map normalizeGroupName) :
    buildGlobRoutes entries ⟨cfg1⟩ = buildGlobRoutes entries ⟨cfg2⟩ := by
  unfold buildGlobRoutes
  have : (⟨cfg1⟩ : BuildOptions).segmentGroupOrder.map normalizeGroupName
      = (⟨cfg2⟩ : BuildOptions).segmentGroupOrder.map normalizeGroupName := h
  rw [this]

/-- C6.  An ordering-config entry matches a group by inner name whether or
not it is wrapped in parentheses: configurations with the same normalized
names produce identical trees, and on the repository's three-group test
input the parenthesized config `["(main)", "(login)"]` yields the same
tree (with roots `(main)`, `(login)`, `(external)`) as the unwrapped
spelling `["main", "login"]`. -/
theorem c6_paren_tolerant_matching :
    (∀ (α : Type) (entries : List (String × α)) (cfg1 cfg2 : List String),
      cfg1.map normalizeGroupName = cfg2.map normalizeGroupName →
      buildGlobRoutes entries ⟨cfg1⟩ = buildGlobRoutes entries ⟨cfg2⟩)
    ∧ rootFs (buildGlobRoutes parenOrderEntries ⟨["(main)", "(login)"]⟩)
        = ["./pages/(main)", "./pages/(login)", "./pages/(external)"]
    ∧ buildGlobRoutes parenOrderEntries ⟨["(main)", "(login)"]⟩
        = buildGlobRoutes parenOrderEntries ⟨["main", "login"]⟩ :=
  ⟨fun _ entries cfg1 cfg2 h => buildGlobRoutes_normalize entries cfg1 cfg2 h,
   by decide,
   buildGlobRoutes_normalize parenOrderEntries _ _ (by decide)⟩

/-- C6 witness: the general conjunct applied at the mixed-format input. -/
theorem c6_paren_tolerant_matching_witness :
    (["(main)", "login"] : List String).map normalizeGroupName
        = (["main", "(login)"] : List String).map normalizeGroupName
    ∧ buildGlobRoutes parenOrderEntries ⟨["(main)", "login"]⟩
        = buildGlobRoutes parenOrderEntries ⟨["main", "(login)"]⟩ :=
  ⟨by decide,
   c6_paren_tolerant_matching.1 Nat parenOrderEntries ["(main)", "login"] ["main", "(login)"]
     (by decide)⟩

theorem pickGroups_nil : ∀ ns : List String, pickGroups ns ([] : List (Tagged α)) = []
  | [] => rfl
  | _ :: ns => by simp [pickGroups, List.find?, pickGroups_nil ns]

/-- The root `hasChildren` / empty-children flags of a compile result. -/
def rootChildrenInfo (o : Option (List (RouteNode α))) : List (Bool × Bool) :=
  match o with
  | some l => l.map (fun n => (n.hasChildren, n.children.isNil))
  | none => []

/-- C7.  A group directory whose only file is a layout file and which has
no other descendants synthesizes a node whose `children` field is present
and equal to the empty list; concretely, `(main)/layout` alone compiles to
a single root with an empty (but present) children list. -/
theorem c7_empty_group_children :
    (∀ (α : Type) (names : List String) (dirFs fullP name : String) (f : FileRef α)
        (rest : DirForest α),
      (parseSegment name).kind = .group →
      ∃ tg tgs, synthForest names dirFs fullP (.cons name (.mk (some f) none [] .nil) rest)
          = tg :: tgs
        ∧ tg.node.hasChildren = true ∧ tg.node.children = .nil
        ∧ tg.node.lazyFn = some f.loader)
    ∧ rootChildrenInfo (buildGlobRoutes [("./pages/(main)/layout.tsx", (0 : Nat))] ⟨[]⟩)
        = [(true, true)] := by
  refine ⟨?_, by decide⟩
  intro α names dirFs fullP name f rest hk
  have hkids : synthChildren names (dirFs ++ "/" ++ name) fullP
      (DirTree.mk (some f) none [] .nil) = [] := by
    simp [synthChildren, sequenceTagged, sequencedTags, synthForest, pickGroups_nil]
  refine ⟨⟨true, (parseSegment name).label,
      .mk "" (some f.loader) true .nil ⟨dirFs ++ "/" ++ name, fullP, some f.sync⟩⟩,
    synthForest names dirFs fullP rest, ?_, rfl, rfl, rfl⟩
  simp [synthForest, hk, DirTree.layoutF, hkids, RouteForest.ofList]

/-- C7 witness: the general conjunct applied at a concrete group
directory. -/
theorem c7_empty_group_children_witness :
    (parseSegment "(g)").kind = .group
    ∧ ∃ tg tgs,
        synthForest [] "./pages" "" (.cons "(g)" (.mk (some ⟨"layout", false, (7 : Nat)⟩) none [] .nil) .nil)
          = tg :: tgs
        ∧ tg.node.hasChildren = true ∧ tg.node.children = .nil
        ∧ tg.node.lazyFn = some 7 :=
  ⟨by decide,
   c7_empty_group_children.1 Nat [] "./pages" "" "(g)" ⟨"layout", false, 7⟩ .nil (by decide)⟩

theorem pickGroups_subset :
    ∀ (ns : List String) (gs : List (Tagged α)) (x : Tagged α), x ∈ pickGroups ns gs → x ∈ gs
  | [], _, _, h => h
  | n :: ns, gs, x, h => by
    simp only [pickGroups] at h
    cases hf : gs.find? (fun g => g.gname == n) with
    | none =>
      rw [hf] at h
      exact pickGroups_subset ns gs x h
    | some g =>
      rw [hf] at h
      rcases List.mem_cons.mp h with h1 | h2
      · exact h1 ▸ List.mem_of_find?_eq_some hf
      · exact List.mem_of_mem_filter (pickGroups_subset ns _ x h2)

theorem pairwise_of_all_mem {β : Type} {R : β → β → Prop} :
    ∀ {l : List β}, (∀ a ∈ l, ∀ b ∈ l, R a b) → l.Pairwise R
  | [], _ => List.Pairwise.nil
  | a :: l, h =>
    List.Pairwise.cons (fun b hb => h a (List.mem_cons_self a l) b (List.mem_cons_of_mem a hb))
      (pairwise_of_all_mem (fun x hx y hy =>
        h x (List.mem_cons_of_mem a hx) y (List.mem_cons_of_mem a hy)))

/-- Every element of the sorted non-group block is a non-group sibling. -/
theorem mem_sorted_nonGroup {items : List (Tagged α)} {x : Tagged α}
    (hx : x ∈ List.insertionSort taggedLE (items.filter fun y => !y.isGroup)) :
    x.isGroup = false := by
  have := List.of_mem_filter ((List.perm_insertionSort taggedLE _).subset hx)
  simpa using this

/-- Every element of the ordered group block is a group sibling. -/
theorem mem_picked_group {names : List String} {items : List (Tagged α)} {x : Tagged α}
    (hx : x ∈ pickGroups names (items.filter fun y => y.isGroup)) :
    x.isGroup = true :=
  List.of_mem_filter (pickGroups_subset names _ x hx)

/-- The root entries of the non-group-precedence property, in the snapshot
test's key-insertion order (groups `(external)` then `(main)` discovered
first, then the literals `preview` and `add`). -/
def c3RootSequence : List String :=
  ["./pages/add/add", "./pages/preview/preview", "./pages/(external)", "./pages/(main)"]

/-- C3.  At every tree level the sibling sequencer orders non-group siblings
(all Literal/Dynamic/CatchAll-labelled nodes) before group siblings and
sorts them by label; concretely, the top-level entries `add/layout`,
`preview`, `(main)/layout`, `(external)/layout` with no ordering config
compile to the root sequence `add`, `preview`, `(external)`, `(main)`. -/
theorem c3_nongroup_precedence :
    (∀ (α : Type) (names : List String) (items : List (Tagged α)),
      List.Pairwise (fun a b : Tagged α => a.isGroup = true → b.isGroup = true)
        (sequencedTags names items)
      ∧ List.Pairwise taggedLE ((sequencedTags names items).filter (fun x => !x.isGroup)))
    ∧ rootFs (buildGlobRoutes topLevelEntries ⟨[]⟩) = c3RootSequence := by
  refine ⟨?_, by decide⟩
  intro α names items
  constructor
  · unfold sequencedTags
    refine List.pairwise_append.mpr ⟨?_, ?_, ?_⟩
    · refine pairwise_of_all_mem (fun a ha b _ hg => ?_)
      rw [mem_sorted_nonGroup ha] at hg
      cases hg
    · exact pairwise_of_all_mem (fun a _ b hb _ => mem_picked_group hb)
    · exact fun a _ b hb _ => mem_picked_group hb
  · unfold sequencedTags
    rw [List.filter_append]
    have h1 : (List.insertionSort taggedLE (items.filter fun y => !y.isGroup)).filter
        (fun x => !x.isGroup) = List.insertionSort taggedLE (items.filter fun y => !y.isGroup) :=
      List.filter_eq_self.mpr (fun a ha => by rw [mem_sorted_nonGroup ha]; rfl)
    have h2 : (pickGroups names (items.filter fun y => y.isGroup)).filter
        (fun x => !x.isGroup) = [] :=
      List.filter_eq_nil_iff.mpr (fun a ha => by rw [mem_picked_group ha]; simp)
    rw [h1, h2, List.append_nil]
    exact List.sorted_insertionSort taggedLE _

theorem find?_filter_ne (gs : List (Tagged α)) (m n : String) (hmn : m ≠ n) :
    (gs.filter (fun g2 => g2.gname != n)).find? (fun g => g.gname == m)
      = gs.find? (fun g => g.gname == m) := by
  induction gs with
  | nil => rfl
  | cons g gs ih =>
    by_cases hg : g.gname = n
    · have hfilter : (g.gname != n) = false := by simp [hg]
      have hfind : (g.gname == m) = false := by
        simp only [beq_eq_false_iff_ne, ne_eq, hg]
        exact fun h => hmn h.symm
      simp [List.filter_cons, hfilter, List.find?_cons, hfind, ih]
    · have hfilter : (g.gname != n) = true := by simp [hg]
      by_cases hgm : g.gname = m
      · simp [List.filter_cons, hfilter, List.find?_cons, hgm, hmn]
      · have hfind : (g.gname == m) = false := by simp [hgm]
        simp [List.filter_cons, hfilter, List.find?_cons, hfind, ih]

/-- Characterization of the group sequencer: groups named in the
(normalized, duplicate-free) ordering list come first, in list order; all
remaining groups follow in their original (first-discovery) order. -/
theorem pickGroups_eq (ns : List String) (gs : List (Tagged α)) (hnd : ns.Nodup) :
    pickGroups ns gs =
      ns.filterMap (fun n => gs.find? (fun g => g.gname == n))
        ++ gs.filter (fun g => !ns.contains g.gname) := by
  induction ns generalizing gs with
  | nil =>
    simp only [pickGroups, List.filterMap_nil, List.nil_append]
    exact (List.filter_eq_self.mpr (fun a _ => by simp [List.contains])).symm
  | cons n ns ih =>
    have hnotin : n ∉ ns := (List.nodup_cons.mp hnd).1
    have hnd' : ns.Nodup := (List.nodup_cons.mp hnd).2
    have hmaps : ns.filterMap (fun m => (gs.filter (fun g2 => g2.gname != n)).find?
        (fun g => g.gname == m)) = ns.filterMap (fun m => gs.find? (fun g => g.gname == m)) :=
      List.filterMap_congr (fun m hm => find?_filter_ne gs m n (fun he => hnotin (he ▸ hm)))
    have hfilters : (gs.filter (fun g2 => g2.gname != n)).filter
        (fun g => !ns.contains g.gname) = gs.filter (fun g => !(n :: ns).contains g.gname) := by
      rw [List.filter_filter]
      refine List.filter_congr (fun x _ => ?_)
      by_cases hxn : x.gname = n <;> simp [hxn, List.contains_cons]
    cases hf : gs.find? (fun g => g.gname == n) with
    | some g =>
      have hL : pickGroups (n :: ns) gs
          = g :: pickGroups ns (gs.filter (fun g2 => g2.gname != n)) := by
        simp [pickGroups, hf]
      have hR : (n :: ns).filterMap (fun m => gs.find? (fun g => g.gname == m))
          = g :: ns.filterMap (fun m => gs.find? (fun g => g.gname == m)) := by
        simp [List.filterMap_cons, hf]
      rw [hL, hR, ih _ hnd', hmaps, hfilters, List.cons_append]
    | none =>
      have hnone : ∀ g ∈ gs, g.gname ≠ n := by
        intro g hg he
        exact absurd (by simp [he] : (g.gname == n) = true) (List.find?_eq_none.mp hf g hg)
      have hL : pickGroups (n :: ns) gs = pickGroups ns gs := by
        simp [pickGroups, hf]
      have hR : (n :: ns).filterMap (fun m => gs.find? (fun g => g.gname == m))
          = ns.filterMap (fun m => gs.find? (fun g => g.gname == m)) := by
        simp [List.filterMap_cons, hf]
      have hfilters2 : gs.filter (fun g => !ns.contains g.gname)
          = gs.filter (fun g => !(n :: ns).contains g.gname) :=
        List.filter_congr (fun x hx => by simp [List.contains_cons, hnone x hx])
      rw [hL, hR, ih _ hnd', hfilters2]

/-- The root group sequence of the partial-custom-order snapshot. -/
def c5RootSequence : List String :=
  ["./pages/(main)", "./pages/(admin)", "./pages/(external)", "./pages/(settings)"]

/-- C5.  Group siblings named in the ordering list come first in list
order, the remaining groups follow in first-discovery order; concretely,
groups `(admin)`, `(external)`, `(main)`, `(settings)` with ordering config
`["main"]` compile to the root sequence `(main)`, `(admin)`, `(external)`,
`(settings)`. -/
theorem c5_custom_group_order :
    (∀ (α : Type) (gs : List (Tagged α)) (ns : List String), ns.Nodup →
      pickGroups ns gs =
        ns.filterMap (fun n => gs.find? (fun g => g.gname == n))
          ++ gs.filter (fun g => !ns.contains g.gname))
    ∧ rootFs (buildGlobRoutes partialOrderEntries ⟨["main"]⟩) = c5RootSequence :=
  ⟨fun _ gs ns hnd => pickGroups_eq ns gs hnd, by decide⟩

/-- A placeholder node used to instantiate sequencer statements. -/
def blankNode : RouteNode Nat := .mk "" none false .nil ⟨"", "", none⟩

/-- C5 witness: the characterization applied at a concrete group list. -/
theorem c5_custom_group_order_witness :
    (["b"] : List String).Nodup
    ∧ pickGroups ["b"] [⟨true, "a", blankNode⟩, ⟨true, "b", blankNode⟩]
        = (["b"] : List String).filterMap
            (fun n => [(⟨true, "a", blankNode⟩ : Tagged Nat), ⟨true, "b", blankNode⟩].find?
              (fun g => g.gname == n))
          ++ [(⟨true, "a", blankNode⟩ : Tagged Nat), ⟨true, "b", blankNode⟩].filter
              (fun g => !(["b"] : List String).contains g.gname) :=
  ⟨by decide,
   c5_custom_group_order.1 Nat [⟨true, "a", blankNode⟩, ⟨true, "b", blankNode⟩] ["b"] (by decide)⟩

/-- Input list witnessing that key-insertion order is observable. -/
def permInputA : List (String × Nat) :=
  [("./pages/(a)/layout.tsx", 0), ("./pages/(b)/layout.tsx", 1)]

/-- The same (path, loader) pairs in the opposite insertion order. -/
def permInputB : List (String × Nat) :=
  [("./pages/(b)/layout.tsx", 1), ("./pages/(a)/layout.tsx", 0)]

/-- C8 counterexample.  Two input maps with the same (path, loader) pairs in
different key-insertion orders produce different trees: with two root-level
groups the discovery-order tie-break swaps the root sequence. -/
theorem c8_counterexample :
    permInputB.Perm permInputA
    ∧ buildGlobRoutes permInputA ⟨[]⟩ ≠ buildGlobRoutes permInputB ⟨[]⟩ :=
  ⟨List.Perm.swap _ _ _,
   fun h => absurd (congrArg rootFs h) (by decide)⟩

/-- C8 amended.  `buildGlobRoutes` is a pure function of the input list and
ordering config: equal inputs (same pairs in the same insertion order) give
structurally identical outputs; key insertion order, however, may affect
sibling order through the documented discovery-order tie-breaks. -/
theorem c8_determinism (α : Type) (entries1 entries2 : List (String × α))
    (opts : BuildOptions) (h : entries1 = entries2) :
    buildGlobRoutes entries1 opts = buildGlobRoutes entries2 opts := by
  rw [h]

/-- C8 witness: determinism applied at a concrete input. -/
theorem c8_determinism_witness :
    permInputA = permInputA
    ∧ buildGlobRoutes permInputA ⟨[]⟩ = buildGlobRoutes permInputA ⟨[]⟩ :=
  ⟨rfl, c8_determinism Nat permInputA permInputA ⟨[]⟩ rfl⟩

mutual
/-- Find the first node with the given source path, depth-first. -/
def findNodeN (fs : String) : RouteNode α → Option (RouteNode α)
  | .mk p lz hc cs m => if m.fs = fs then some (.mk p lz hc cs m) else findNodeF fs cs

def findNodeF (fs : String) : RouteForest α → Option (RouteNode α)
  | .nil => none
  | .cons h t =>
    match findNodeN fs h with
    | some r => some r
    | none => findNodeF fs t
end

/-- Find a node by source path in a compile result. -/
def lookNode (o : Option (List (RouteNode α))) (fs : String) : Option (RouteNode α) :=
  match o with
  | some l => findNodeF fs (RouteForest.ofList l)
  | none => none

/-- A node's relative path, loader presence, and one level of children
(path, loader presence, source path). -/
def nodeSummary (n : RouteNode α) : String × Bool × List (String × Bool × String) :=
  (n.path, n.lazyFn.isSome,
   n.children.toList.map (fun c => (c.path, c.lazyFn.isSome, c.meta.fs)))

/-- The `feed/[id]` input of the default-order snapshot test. -/
def dynEntries : List (String × Nat) :=
  [("./pages/feed/[id]/layout.tsx", 0), ("./pages/feed/[id]/index.tsx", 1)]

/-- C4.  A directory whose own segment is Literal/Dynamic/CatchAll
synthesizes a loaderless wrapper node at its segment label; with a layout
present it additionally nests a single layout-backed inner node at
`path = ""` as the wrapper's sole child, under which every remaining child
attaches; concretely, the `add` and `[id]` snapshot shapes. -/
theorem c4_wrapper_inner_nodes :
    (∀ (α : Type) (names : List String) (dirFs fullP name : String) (sub : DirTree α)
        (rest : DirForest α),
      (parseSegment name).kind ≠ .group →
      ∃ tg tgs, synthForest names dirFs fullP (.cons name sub rest) = tg :: tgs
        ∧ tg.node.path = (parseSegment name).label
        ∧ tg.node.lazyFn = none
        ∧ (∀ f, sub.layoutF = some f →
            tg.node.children =
              .cons (.mk "" (some f.loader) true
                (.ofList (synthChildren names (dirFs ++ "/" ++ name)
                  (fullP ++ "/" ++ (parseSegment name).label) sub))
                ⟨dirFs ++ "/" ++ name ++ "/layout",
                 fullP ++ "/" ++ (parseSegment name).label, some f.sync⟩) .nil)
        ∧ (sub.layoutF = none →
            tg.node.children = .ofList (synthChildren names (dirFs ++ "/" ++ name)
              (fullP ++ "/" ++ (parseSegment name).label) sub)))
    ∧ (lookNode (buildGlobRoutes addEntries ⟨[]⟩) "./pages/add/add").map nodeSummary
        = some ("add", false, [("", true, "./pages/add/layout")])
    ∧ (lookNode (buildGlobRoutes addEntries ⟨[]⟩) "./pages/add/layout").map nodeSummary
        = some ("", true, [("", true, "./pages/add/index/")])
    ∧ (lookNode (buildGlobRoutes dynEntries ⟨[]⟩) "./pages/feed/[id]/:id").map nodeSummary
        = some (":id", false, [("", true, "./pages/feed/[id]/layout")]) := by
  refine ⟨?_, by decide, by decide, by decide⟩
  intro α names dirFs fullP name sub rest hk
  cases hl : sub.layoutF with
  | some f =>
    refine ⟨⟨false, "", .mk (parseSegment name).label none true
        (.cons (.mk "" (some f.loader) true
          (.ofList (synthChildren names (dirFs ++ "/" ++ name)
            (fullP ++ "/" ++ (parseSegment name).label) sub))
          ⟨dirFs ++ "/" ++ name ++ "/layout",
           fullP ++ "/" ++ (parseSegment name).label, some f.sync⟩) .nil)
        ⟨dirFs ++ "/" ++ name ++ "/" ++ (parseSegment name).label,
         fullP ++ "/" ++ (parseSegment name).label, none⟩⟩,
      synthForest names dirFs fullP rest, ?_, rfl, rfl, ?_, ?_⟩
    · simp [synthForest, hk, hl]
    · intro f' hf'
      injection hf' with hf'
      rw [← hf']
      rfl
    · intro h0
      cases h0
  | none =>
    refine ⟨⟨false, "", .mk (parseSegment name).label none true
        (.ofList (synthChildren names (dirFs ++ "/" ++ name)
          (fullP ++ "/" ++ (parseSegment name).label) sub))
        ⟨dirFs ++ "/" ++ name ++ "/" ++ (parseSegment name).label,
         fullP ++ "/" ++ (parseSegment name).label, none⟩⟩,
      synthForest names dirFs fullP rest, ?_, rfl, rfl, ?_, ?_⟩
    · simp [synthForest, hk, hl]
    · intro f' hf'
      cases hf'
    · intro _
      rfl

/-- C4 witness: the general conjunct applied at a concrete literal
directory with a layout. -/
theorem c4_wrapper_inner_nodes_witness :
    (parseSegment "docs").kind ≠ SegKind.group
    ∧ ∃ tg tgs, synthForest [] "./pages" ""
          (.cons "docs" (.mk (some ⟨"layout", false, (5 : Nat)⟩) none [] .nil) .nil)
        = tg :: tgs
      ∧ tg.node.path = (parseSegment "docs").label
      ∧ tg.node.lazyFn = none
      ∧ (∀ f, (DirTree.mk (some ⟨"layout", false, (5 : Nat)⟩) none [] .nil).layoutF = some f →
          tg.node.children =
            .cons (.mk "" (some f.loader) true
              (.ofList (synthChildren [] ("./pages" ++ "/" ++ "docs")
                ("" ++ "/" ++ (parseSegment "docs").label)
                (.mk (some ⟨"layout", false, (5 : Nat)⟩) none [] .nil)))
              ⟨"./pages" ++ "/" ++ "docs" ++ "/layout",
               "" ++ "/" ++ (parseSegment "docs").label, some f.sync⟩) .nil)
      ∧ ((DirTree.mk (some ⟨"layout", false, (5 : Nat)⟩) none [] .nil).layoutF = none →
          tg.node.children = .ofList (synthChildren [] ("./pages" ++ "/" ++ "docs")
            ("" ++ "/" ++ (parseSegment "docs").label)
            (.mk (some ⟨"layout", false, (5 : Nat)⟩) none [] .nil))) :=
  ⟨by decide,
   c4_wrapper_inner_nodes.1 Nat [] "./pages" "" "docs"
     (.mk (some ⟨"layout", false, 5⟩) none [] .nil) .nil (by decide)⟩

mutual
theorem processRoute_noMeta (fm sm lm : List (String × String)) :
    ∀ n : RouteNode α, serNoMetaRoute (processRoute fm sm lm n) = true
  | .mk p lz hc cs m => by
    simp only [processRoute, serNoMetaRoute, Option.isNone_none, Bool.true_and]
    exact processRoutes_noMeta fm sm lm cs

theorem processRoutes_noMeta (fm sm lm : List (String × String)) :
    ∀ cs : RouteForest α, serNoMetaForest (processRoutes fm sm lm cs) = true
  | .nil => rfl
  | .cons h t => by
    simp only [processRoutes, serNoMetaForest]
    rw [processRoute_noMeta fm sm lm h, processRoutes_noMeta fm sm lm t]
    rfl
end

mutual
theorem processRoute_shape (fm sm lm : List (String × String)) :
    ∀ n : RouteNode α, serShape (processRoute fm sm lm n) = routeShape n
  | .mk p lz hc cs m => by
    simp only [processRoute, serShape, routeShape]
    rw [processRoutes_shape fm sm lm cs]

theorem processRoutes_shape (fm sm lm : List (String × String)) :
    ∀ cs : RouteForest α, serShapeForest (processRoutes fm sm lm cs) = routeShapeForest cs
  | .nil => rfl
  | .cons h t => by
    simp only [processRoutes, serShapeForest, routeShapeForest]
    rw [processRoute_shape fm sm lm h, processRoutes_shape fm sm lm t]
end

/-- C9.  `processRoutes` never leaks the per-node metadata slot: every node
of its output carries no `ROUTE_BUILDER_HANDLE` entry (so the JSON-serialized
route configuration contains no metadata fields), while the path/children
skeleton of the tree is preserved. -/
theorem c9_metadata_not_leaked :
    ∀ (α : Type) (fileMap syncMap lazyMap : List (String × String)) (routes : RouteForest α),
      serNoMetaForest (processRoutes fileMap syncMap lazyMap routes) = true
      ∧ serShapeForest (processRoutes fileMap syncMap lazyMap routes) = routeShapeForest routes :=
  fun _ fm sm lm rs => ⟨processRoutes_noMeta fm sm lm rs, processRoutes_shape fm sm lm rs⟩

/-! ## Lemmas for `resolveMatchedKey` (C10) -/

theorem stripPre_eq_some : ∀ {p s r : List Char}, stripPre p s = some r → s = p ++ r
  | [], s, r, h => Option.some.inj h
  | p :: ps, [], r, h => by cases h
  | p :: ps, c :: cs, r, h => by
    by_cases hpc : p = c
    · rw [stripPre, if_pos hpc] at h
      rw [List.cons_append, hpc]
      exact congrArg (c :: ·) (stripPre_eq_some h)
    · rw [stripPre, if_neg hpc] at h
      cases h

theorem stripPre_append (p v : List Char) : stripPre p (p ++ v) = some v := by
  induction p with
  | nil => rfl
  | cons c cs ih => simp [stripPre, ih]

theorem endsWith_exists {s suf : String} (h : endsWithStr s suf = true) :
    ∃ pre, s.data = pre ++ suf.data := by
  unfold endsWithStr startsWithList at h
  cases hsp : stripPre suf.data.reverse s.data.reverse with
  | none => rw [hsp] at h; cases h
  | some r =>
    have h2 := stripPre_eq_some hsp
    refine ⟨r.reverse, ?_⟩
    have h3 := congrArg List.reverse h2
    simpa using h3

theorem hasSub_append_of : ∀ (u p v : List Char), hasSub p (u ++ (p ++ v)) = true
  | [], p, v => by
    cases p with
    | nil =>
      cases v with
      | nil => rfl
      | cons c cs => simp [hasSub, startsWithList, stripPre]
    | cons q qs =>
      have hs : startsWithList (q :: qs) ((q :: qs) ++ v) = true := by
        unfold startsWithList
        rw [stripPre_append]
        rfl
      show (startsWithList (q :: qs) ((q :: qs) ++ v) || hasSub (q :: qs) (qs ++ v)) = true
      rw [hs]
      rfl
  | c :: u, p, v => by
    show hasSub p (c :: (u ++ (p ++ v))) = true
    rw [hasSub]
    rw [hasSub_append_of u p v]
    simp

theorem hasSub_exists : ∀ {p s : List Char}, hasSub p s = true → ∃ u v, s = u ++ p ++ v
  | p, [], h => by
    unfold hasSub at h
    rw [List.isEmpty_iff] at h
    exact ⟨[], [], by simp [h]⟩
  | p, c :: cs, h => by
    rw [hasSub, Bool.or_eq_true] at h
    rcases h with h | h
    · unfold startsWithList at h
      cases hsp : stripPre p (c :: cs) with
      | none => rw [hsp] at h; cases h
      | some r => exact ⟨[], r, by simpa using stripPre_eq_some hsp⟩
    · obtain ⟨u, v, huv⟩ := hasSub_exists h
      exact ⟨c :: u, v, by simp [huv]⟩

theorem hasSub_extend {p u : List Char} (w : List Char) (h : hasSub p u = true) :
    hasSub p (u ++ w) = true := by
  obtain ⟨a, b, hab⟩ := hasSub_exists h
  rw [hab]
  have hassoc : a ++ p ++ b ++ w = a ++ (p ++ (b ++ w)) := by simp [List.append_assoc]
  rw [hassoc]
  exact hasSub_append_of a p (b ++ w)

theorem startsWith_append_of_le : ∀ (p u v : List Char), p.length ≤ u.length →
    startsWithList p (u ++ v) = startsWithList p u
  | [], _, _, _ => rfl
  | a :: ps, [], v, h => by simp at h
  | a :: ps, b :: us, v, h => by
    show startsWithList (a :: ps) (b :: (us ++ v)) = startsWithList (a :: ps) (b :: us)
    unfold startsWithList stripPre
    by_cases hab : a = b
    · rw [if_pos hab, if_pos hab]
      exact startsWith_append_of_le ps us v (by simpa using h)
    · rw [if_neg hab, if_neg hab]

-- (X ++ ".tsx") ends with ".sync.tsx" implies X contains ".sync"
theorem hasSub_sync_of_endsWith (X : String) (h : endsWithStr (X ++ ".tsx") ".sync.tsx" = true) :
    hasSub ".sync".data X.data = true := by
  obtain ⟨pre, hpre⟩ := endsWith_exists h
  rw [String.data_append] at hpre
  have hsplit : (".sync.tsx" : String).data = ".sync".data ++ ".tsx".data := by decide
  rw [hsplit, ← List.append_assoc] at hpre
  have hx : X.data = pre ++ ".sync".data := List.append_cancel_right hpre
  have h0 := hasSub_append_of pre (".sync".data) []
  rw [List.append_nil] at h0
  rw [hx]
  exact h0

theorem not_endsWith_layout (X : String) :
    endsWithStr (X ++ "/layout.tsx") ".sync.tsx" = false := by
  unfold endsWithStr
  rw [String.data_append, List.reverse_append, startsWith_append_of_le _ _ _ (by decide)]
  decide

theorem not_endsWith_index (X : String) :
    endsWithStr (X ++ "/index.tsx") ".sync.tsx" = false := by
  unfold endsWithStr
  rw [String.data_append, List.reverse_append, startsWith_append_of_le _ _ _ (by decide)]
  decide

theorem stripDyn_keep {c : Char} (cs : List Char) (hc : c ≠ '/') :
    stripDyn (c :: cs) = c :: stripDyn cs := by
  simp [stripDyn, hc]

theorem stripDyn_slash : ∀ (cs : List Char),
    stripDyn ('/' :: cs) = [] ∨ stripDyn ('/' :: cs) = '/' :: stripDyn cs
  | [] => Or.inr (by simp [stripDyn])
  | [x] => Or.inr (by simp [stripDyn])
  | ':' :: d :: rest => by
    by_cases hd : d = '/'
    · exact Or.inr (by simp [stripDyn, hd])
    · exact Or.inl (by simp [stripDyn, hd])
  | x :: y :: rest => by
    by_cases hx : x = ':'
    · subst hx
      by_cases hd : y = '/'
      · exact Or.inr (by simp [stripDyn, hd])
      · exact Or.inl (by simp [stripDyn, hd])
    · exact Or.inr (by simp [stripDyn, hx])

theorem stripDyn_prefix : ∀ l : List Char, ∃ w, l = stripDyn l ++ w := by
  intro l
  induction l with
  | nil => exact ⟨[], rfl⟩
  | cons c cs ih =>
    by_cases hc : c = '/'
    · subst hc
      rcases stripDyn_slash cs with he | he
      · exact ⟨'/' :: cs, by rw [he]; rfl⟩
      · obtain ⟨w, hw⟩ := ih
        exact ⟨w, by rw [he, List.cons_append, ← hw]⟩
    · obtain ⟨w, hw⟩ := ih
      exact ⟨w, by rw [stripDyn_keep cs hc, List.cons_append, ← hw]⟩

theorem splitOnSlash_ne_nil : ∀ cs : List Char, splitOnSlash cs ≠ []
  | [] => by simp [splitOnSlash]
  | c :: cs => by
    simp only [splitOnSlash]
    by_cases hc : c = '/'
    · simp [hc]
    · cases h : splitOnSlash cs <;> simp [hc, h]

theorem joinSlash_cons (x : List Char) (h : List Char) (t : List (List Char)) :
    joinSlash (x :: h :: t) = x ++ '/' :: joinSlash (h :: t) := by
  rfl

theorem joinSlash_splitOnSlash : ∀ cs : List Char, joinSlash (splitOnSlash cs) = cs := by
  intro cs
  induction cs with
  | nil => rfl
  | cons c cs ih =>
    rw [splitOnSlash]
    by_cases hc : c = '/'
    · rw [if_pos hc]
      rcases hsp : splitOnSlash cs with _ | ⟨h, t⟩
      · exact absurd hsp (splitOnSlash_ne_nil cs)
      · rw [joinSlash_cons, ← hsp, ih, hc]
        rfl
    · rw [if_neg hc]
      rcases hsp : splitOnSlash cs with _ | ⟨h, t⟩
      · exact absurd hsp (splitOnSlash_ne_nil cs)
      · rw [hsp] at ih
        cases t with
        | nil =>
          show c :: h = c :: cs
          rw [← ih]
          rfl
        | cons u us =>
          show joinSlash ((c :: h) :: u :: us) = c :: cs
          rw [joinSlash_cons, ← ih, joinSlash_cons, List.cons_append]

theorem joinSlash_append_last : ∀ (ps : List (List Char)) (x : List Char), ps ≠ [] →
    joinSlash (ps ++ [x]) = joinSlash ps ++ '/' :: x
  | [], _, h => absurd rfl h
  | [a], x, _ => rfl
  | a :: b :: ps, x, _ => by
    show joinSlash (a :: b :: (ps ++ [x])) = joinSlash (a :: b :: ps) ++ '/' :: x
    rw [joinSlash_cons, joinSlash_cons]
    rw [← List.cons_append, joinSlash_append_last (b :: ps) x (by simp)]
    simp [List.append_assoc]

theorem joinSlash_dropLast_prefix (l : List Char) (h2 : 2 ≤ (splitOnSlash l).length) :
    ∃ w, l = joinSlash (splitOnSlash l).dropLast ++ w := by
  have hne : splitOnSlash l ≠ [] := splitOnSlash_ne_nil l
  have hd : (splitOnSlash l).dropLast ≠ [] := by
    intro hnil
    have hlen := List.length_dropLast (splitOnSlash l)
    rw [hnil] at hlen
    simp at hlen
    omega
  refine ⟨'/' :: (splitOnSlash l).getLast hne, ?_⟩
  calc l = joinSlash (splitOnSlash l) := (joinSlash_splitOnSlash l).symm
    _ = joinSlash ((splitOnSlash l).dropLast ++ [(splitOnSlash l).getLast hne]) := by
        rw [List.dropLast_append_getLast hne]
    _ = joinSlash (splitOnSlash l).dropLast ++ '/' :: (splitOnSlash l).getLast hne :=
        joinSlash_append_last _ _ hd

theorem andE {a b : Bool} (h : (a && b) = true) : a = true ∧ b = true := by
  constructor
  · exact Bool.and_elim_left h
  · exact Bool.and_elim_right h

theorem resolveMatchedKey_spec (fsPath : String) (isSync : Option Bool)
    (m : List (String × String)) (k : String)
    (h : resolveMatchedKey fsPath isSync m = some k) :
    lookupTruthy m k = true ∧
      (isSync = some true ∨
        ∃ X : String, (∃ w, fsPath.data = X.data ++ w) ∧
          (k = X ++ ".tsx" ∨ k = X ++ "/layout.tsx" ∨ k = X ++ "/index.tsx")) := by
  have hself : ∃ w, fsPath.data = fsPath.data ++ w := ⟨[], by simp⟩
  have hdropl : ∃ w, fsPath.data = (String.mk fsPath.data.dropLast).data ++ w := by
    obtain ⟨t, ht⟩ := List.dropLast_prefix fsPath.data
    exact ⟨t, ht.symm⟩
  have hdyn : ∃ w, fsPath.data = (String.mk (stripDyn fsPath.data)).data ++ w :=
    stripDyn_prefix fsPath.data
  unfold resolveMatchedKey at h
  by_cases c1 : ((isSync == some true) && lookupTruthy m (fsPath ++ ".sync.tsx")) = true
  · rw [if_pos c1] at h
    injection h with h
    subst h
    exact ⟨(andE c1).2, Or.inl (by simpa using (andE c1).1)⟩
  · rw [if_neg c1] at h
    by_cases c2 : lookupTruthy m (fsPath ++ ".tsx") = true
    · rw [if_pos c2] at h
      injection h with h
      subst h
      exact ⟨c2, Or.inr ⟨fsPath, hself, Or.inl rfl⟩⟩
    · rw [if_neg c2] at h
      by_cases c3 : ((isSync == some true) && lookupTruthy m (fsPath ++ "/layout.sync.tsx")) = true
      · rw [if_pos c3] at h
        injection h with h
        subst h
        exact ⟨(andE c3).2, Or.inl (by simpa using (andE c3).1)⟩
      · rw [if_neg c3] at h
        by_cases c4 : lookupTruthy m (fsPath ++ "/layout.tsx") = true
        · rw [if_pos c4] at h
          injection h with h
          subst h
          exact ⟨c4, Or.inr ⟨fsPath, hself, Or.inr (Or.inl rfl)⟩⟩
        · rw [if_neg c4] at h
          by_cases c5 : ((isSync == some true) && lookupTruthy m (fsPath ++ "/index.sync.tsx")) = true
          · rw [if_pos c5] at h
            injection h with h
            subst h
            exact ⟨(andE c5).2, Or.inl (by simpa using (andE c5).1)⟩
          · rw [if_neg c5] at h
            by_cases c6 : lookupTruthy m (fsPath ++ "/index.tsx") = true
            · rw [if_pos c6] at h
              injection h with h
              subst h
              exact ⟨c6, Or.inr ⟨fsPath, hself, Or.inr (Or.inr rfl)⟩⟩
            · rw [if_neg c6] at h
              by_cases c7 : endsWithStr fsPath "/" = true
              · rw [if_pos c7] at h
                by_cases c8 : ((isSync == some true) && lookupTruthy m (String.mk fsPath.data.dropLast ++ "/index.sync.tsx")) = true
                · rw [if_pos c8] at h
                  injection h with h
                  subst h
                  exact ⟨(andE c8).2, Or.inl (by simpa using (andE c8).1)⟩
                · rw [if_neg c8] at h
                  by_cases c9 : lookupTruthy m (String.mk fsPath.data.dropLast ++ "/index.tsx") = true
                  · rw [if_pos c9] at h
                    injection h with h
                    subst h
                    exact ⟨c9, Or.inr ⟨String.mk fsPath.data.dropLast, hdropl, Or.inr (Or.inr rfl)⟩⟩
                  · rw [if_neg c9] at h
                    by_cases c10 : ((isSync == some true) && lookupTruthy m (String.mk fsPath.data.dropLast ++ ".sync.tsx")) = true
                    · rw [if_pos c10] at h
                      injection h with h
                      subst h
                      exact ⟨(andE c10).2, Or.inl (by simpa using (andE c10).1)⟩
                    · rw [if_neg c10] at h
                      by_cases c11 : lookupTruthy m (String.mk fsPath.data.dropLast ++ ".tsx") = true
                      · rw [if_pos c11] at h
                        injection h with h
                        subst h
                        exact ⟨c11, Or.inr ⟨String.mk fsPath.data.dropLast, hdropl, Or.inl rfl⟩⟩
                      · rw [if_neg c11] at h
                        exact Option.noConfusion h
              · rw [if_neg c7] at h
                by_cases c12 : hasSub "/:".data fsPath.data = true
                · rw [if_pos c12] at h
                  by_cases c13 : ((isSync == some true) && lookupTruthy m (String.mk (stripDyn fsPath.data) ++ ".sync.tsx")) = true
                  · rw [if_pos c13] at h
                    injection h with h
                    subst h
                    exact ⟨(andE c13).2, Or.inl (by simpa using (andE c13).1)⟩
                  · rw [if_neg c13] at h
                    by_cases c14 : lookupTruthy m (String.mk (stripDyn fsPath.data) ++ ".tsx") = true
                    · rw [if_pos c14] at h
                      injection h with h
                      subst h
                      exact ⟨c14, Or.inr ⟨String.mk (stripDyn fsPath.data), hdyn, Or.inl rfl⟩⟩
                    · rw [if_neg c14] at h
                      exact Option.noConfusion h
                · rw [if_neg c12] at h
                  rcases hrev : (splitOnSlash fsPath.data).reverse with _ | ⟨lastP, _ | ⟨secondP, rest⟩⟩
                  · simp only [hrev] at h
                    exact Option.noConfusion h
                  · simp only [hrev] at h
                    exact Option.noConfusion h
                  · simp only [hrev] at h
                    have hjoin : ∃ w, fsPath.data
                        = (String.mk (joinSlash (splitOnSlash fsPath.data).dropLast)).data ++ w := by
                      refine joinSlash_dropLast_prefix fsPath.data ?_
                      have : (splitOnSlash fsPath.data).reverse.length = (splitOnSlash fsPath.data).length := List.length_reverse _
                      rw [hrev] at this
                      simp at this
                      omega
                    by_cases c15 : lastP = secondP
                    · rw [if_pos c15] at h
                      by_cases c16 : ((isSync == some true) && lookupTruthy m (String.mk (joinSlash (splitOnSlash fsPath.data).dropLast) ++ ".sync.tsx")) = true
                      · rw [if_pos c16] at h
                        injection h with h
                        subst h
                        exact ⟨(andE c16).2, Or.inl (by simpa using (andE c16).1)⟩
                      · rw [if_neg c16] at h
                        by_cases c17 : lookupTruthy m (String.mk (joinSlash (splitOnSlash fsPath.data).dropLast) ++ ".tsx") = true
                        · rw [if_pos c17] at h
                          injection h with h
                          subst h
                          exact ⟨c17, Or.inr ⟨String.mk (joinSlash (splitOnSlash fsPath.data).dropLast), hjoin, Or.inl rfl⟩⟩
                        · rw [if_neg c17] at h
                          exact Option.noConfusion h
                    · rw [if_neg c15] at h
                      exact Option.noConfusion h

theorem resolveMatchedKey_empty (fsPath : String) (isSync : Option Bool) :
    resolveMatchedKey fsPath isSync [] = none := by
  have hl : ∀ k, lookupTruthy [] k = false := fun k => rfl
  unfold resolveMatchedKey
  simp only [hl, Bool.and_false, Bool.false_eq_true, if_false]
  repeat' split
  all_goals rfl

/-- C10 counterexample.  As stated, the claim fails: with `fsPath` itself
ending in `.sync`, the non-sync direct branch returns a key ending in
`.sync.tsx` even though `isSync` is not `true`. -/
theorem c10_counterexample :
    resolveMatchedKey "x.sync" (some false) [("x.sync.tsx", "./x")] = some "x.sync.tsx"
    ∧ endsWithStr "x.sync.tsx" ".sync.tsx" = true
    ∧ (some false : Option Bool) ≠ some true := by decide

/-- C10 (amended).  `resolveMatchedKey` is total; every key it returns is
mapped to a truthy value in `fileToImportMap`; provided `fsPath` itself does
not contain `.sync`, a returned key ends in `.sync.tsx` only when `isSync`
is `true`; and with no candidate present (empty map) it returns
`undefined`. -/
theorem c10_resolve_matched_key :
    (∀ (fsPath : String) (isSync : Option Bool) (m : List (String × String)) (k : String),
      resolveMatchedKey fsPath isSync m = some k → lookupTruthy m k = true)
    ∧ (∀ (fsPath : String) (isSync : Option Bool) (m : List (String × String)) (k : String),
      hasSub ".sync".data fsPath.data = false →
      resolveMatchedKey fsPath isSync m = some k →
      endsWithStr k ".sync.tsx" = true → isSync = some true)
    ∧ (∀ (fsPath : String) (isSync : Option Bool),
      resolveMatchedKey fsPath isSync [] = none) := by
  refine ⟨fun fsPath isSync m k h => (resolveMatchedKey_spec fsPath isSync m k h).1,
    ?_, fun fsPath isSync => resolveMatchedKey_empty fsPath isSync⟩
  intro fsPath isSync m k hns h hend
  rcases (resolveMatchedKey_spec fsPath isSync m k h).2 with hs | ⟨X, ⟨w, hw⟩, hk | hk | hk⟩
  · exact hs
  · subst hk
    have hsync := hasSub_sync_of_endsWith X hend
    have hfull := hasSub_extend w hsync
    rw [← hw] at hfull
    rw [hfull] at hns
    cases hns
  · subst hk
    rw [not_endsWith_layout X] at hend
    cases hend
  · subst hk
    rw [not_endsWith_index X] at hend
    cases hend

/-- C10 witness: the amended properties applied at concrete inputs. -/
theorem c10_resolve_matched_key_witness :
    (resolveMatchedKey "./pages/x" (some false) [("./pages/x.tsx", "../x")] = some "./pages/x.tsx"
      ∧ lookupTruthy [("./pages/x.tsx", "../x")] "./pages/x.tsx" = true)
    ∧ (hasSub ".sync".data "./pages/x".data = false
      ∧ resolveMatchedKey "./pages/x" (some true) [("./pages/x.sync.tsx", "../x")]
          = some "./pages/x.sync.tsx"
      ∧ endsWithStr "./pages/x.sync.tsx" ".sync.tsx" = true
      ∧ (some true : Option Bool) = some true) :=
  ⟨⟨by decide, c10_resolve_matched_key.1 "./pages/x" (some false)
      [("./pages/x.tsx", "../x")] "./pages/x.tsx" (by decide)⟩,
   ⟨by decide, by decide, by decide,
     c10_resolve_matched_key.2.1 "./pages/x" (some true)
       [("./pages/x.sync.tsx", "../x")] "./pages/x.sync.tsx"
       (by decide) (by decide) (by decide)⟩⟩

/-! ## Lemmas for the fullPath invariant (C1) -/

theorem str_append_empty (s : String) : s ++ "" = s := by
  cases s with
  | mk l =>
    show String.mk (l ++ []) = String.mk l
    rw [List.append_nil]

theorem mk_cons_ne_empty (c : Char) (l : List Char) : String.mk (c :: l) ≠ "" := by
  intro h
  have h2 := congrArg String.data h
  simp at h2

theorem parseSegment_label_cases (name : String) (h : name ≠ "") :
    (parseSegment name).kind = .group ∨ (parseSegment name).label ≠ "" := by
  cases hw : wrappedBy '(' ')' name.data with
  | some inner =>
    left
    simp [parseSegment, hw]
  | none =>
    cases hb : wrappedBy '[' ']' name.data with
    | some inner =>
      right
      simp only [parseSegment, hw, hb]
      split
      · exact mk_cons_ne_empty _ _
      · exact mk_cons_ne_empty _ _
    | none =>
      right
      simpa [parseSegment, hw, hb] using h

theorem checkForest_ofList {α : Type} (ctx : String) :
    ∀ l : List (RouteNode α), checkForest ctx (RouteForest.ofList l) = l.all (checkFullPaths ctx)
  | [] => rfl
  | h :: t => by
    simp only [RouteForest.ofList, checkForest, List.all_cons]
    rw [checkForest_ofList ctx t]

theorem mem_sequenceTagged {α : Type} {names : List String} {items : List (Tagged α)}
    {n : RouteNode α} (hn : n ∈ sequenceTagged names items) : ∃ tg ∈ items, tg.node = n := by
  unfold sequenceTagged at hn
  obtain ⟨tg, htg, hte⟩ := List.mem_map.mp hn
  unfold sequencedTags at htg
  rcases List.mem_append.mp htg with h | h
  · exact ⟨tg, List.mem_of_mem_filter ((List.perm_insertionSort taggedLE _).subset h), hte⟩
  · exact ⟨tg, List.mem_of_mem_filter (pickGroups_subset names _ tg h), hte⟩

mutual
theorem synthChildren_check {α : Type} :
    ∀ (t : DirTree α) (names : List String) (dirFs fullP : String),
      wfDir t = true → ∀ n ∈ synthChildren names dirFs fullP t, checkFullPaths fullP n = true
  | .mk layF idxF leaves children => by
    intro names dirFs fullP hwf n hn
    obtain ⟨tg, htg, hte⟩ := mem_sequenceTagged (by exact hn)
    subst hte
    rcases List.mem_append.mp htg with hmem | hmem
    · rcases List.mem_append.mp hmem with hidx | hleaf
      · cases idxF with
        | none => cases hidx
        | some f =>
          rcases List.mem_singleton.mp hidx with rfl
          simp [checkFullPaths, checkForest]
      · obtain ⟨f, _, rfl⟩ := List.mem_map.mp hleaf
        by_cases hlab : (parseSegment f.raw).label = ""
        · simp [checkFullPaths, checkForest, hlab, str_append_empty]
        · simp [checkFullPaths, checkForest, hlab]
    · exact synthForest_check children names dirFs fullP (by simpa [wfDir] using hwf) tg hmem

theorem synthForest_check {α : Type} :
    ∀ (cs : DirForest α) (names : List String) (dirFs fullP : String),
      wfForest cs = true → ∀ tg ∈ synthForest names dirFs fullP cs,
        checkFullPaths fullP tg.node = true
  | .nil => by
    intro names dirFs fullP _ tg htg
    cases htg
  | .cons name sub rest => by
    intro names dirFs fullP hwf tg htg
    have hwf0 := andE (by simpa [wfForest] using hwf : ((name ≠ "" : Bool) && wfDir sub && wfForest rest) = true)
    have hname : name ≠ "" := by simpa using (andE hwf0.1).1
    have hsub : wfDir sub = true := (andE hwf0.1).2
    have hrest : wfForest rest = true := hwf0.2
    by_cases hk : (parseSegment name).kind = .group
    · cases hl : sub.layoutF with
      | some f =>
        simp only [synthForest, if_pos hk, hl] at htg
        rcases List.mem_cons.mp htg with rfl | htg
        · have hkids := synthChildren_check sub names (dirFs ++ "/" ++ name) fullP hsub
          simp only [checkFullPaths]
          rw [checkForest_ofList]
          simp [List.all_eq_true]
          exact hkids
        · exact synthForest_check rest names dirFs fullP hrest tg htg
      | none =>
        simp only [synthForest, if_pos hk, hl] at htg
        rcases List.mem_cons.mp htg with rfl | htg
        · have hkids := synthChildren_check sub names (dirFs ++ "/" ++ name) fullP hsub
          simp only [checkFullPaths]
          rw [checkForest_ofList]
          simp [List.all_eq_true]
          exact hkids
        · exact synthForest_check rest names dirFs fullP hrest tg htg
    · have hlab : (parseSegment name).label ≠ "" :=
        (parseSegment_label_cases name hname).resolve_left hk
      cases hl : sub.layoutF with
      | some f =>
        simp only [synthForest, if_neg hk, hl] at htg
        rcases List.mem_cons.mp htg with rfl | htg
        · have hkids := synthChildren_check sub names (dirFs ++ "/" ++ name)
            (fullP ++ "/" ++ (parseSegment name).label) hsub
          simp only [checkFullPaths, checkForest, hlab]
          rw [checkForest_ofList]
          simp [List.all_eq_true, hlab]
          exact hkids
        · exact synthForest_check rest names dirFs fullP hrest tg htg
      | none =>
        simp only [synthForest, if_neg hk, hl] at htg
        rcases List.mem_cons.mp htg with rfl | htg
        · have hkids := synthChildren_check sub names (dirFs ++ "/" ++ name)
            (fullP ++ "/" ++ (parseSegment name).label) hsub
          simp only [checkFullPaths, checkForest, hlab]
          rw [checkForest_ofList]
          simp [List.all_eq_true, hlab]
          exact hkids
        · exact synthForest_check rest names dirFs fullP hrest tg htg
end

mutual
theorem propagate_check {α : Type} :
    ∀ (n : RouteNode α) (ctx : String),
      checkFullPaths ctx n = true → checkFullPaths ctx (propagate n) = true
  | .mk p lz hc cs m => by
    intro ctx h
    simp only [checkFullPaths] at h
    obtain ⟨h1, h2⟩ := andE h
    simp only [propagate, checkFullPaths]
    rw [h1, propagateForest_check cs _ h2]
    rfl

theorem propagateForest_check {α : Type} :
    ∀ (cs : RouteForest α) (ctx : String),
      checkForest ctx cs = true → checkForest ctx (propagateForest cs) = true
  | .nil => by
    intro ctx _
    rfl
  | .cons h t => by
    intro ctx hc
    simp only [checkForest] at hc
    obtain ⟨h1, h2⟩ := andE hc
    simp only [propagateForest, checkForest]
    rw [propagate_check h ctx h1, propagateForest_check t ctx h2]
    rfl
end

theorem wf_updForest {α : Type} (d : String) (hd : d ≠ "") (g : DirTree α → DirTree α)
    (hg : ∀ t, wfDir t = true → wfDir (g t) = true) :
    ∀ cs : DirForest α, wfForest cs = true → wfForest (updForest d g cs) = true
  | .nil => by
    intro _
    simp [updForest, wfForest, hd, hg emptyDir rfl]
  | .cons n t rest => by
    intro hwf
    have h0 := andE (by simpa [wfForest] using hwf :
      ((n ≠ "" : Bool) && wfDir t && wfForest rest) = true)
    have hn := (andE h0.1).1
    have ht := (andE h0.1).2
    have hrest := h0.2
    by_cases hnd : n = d
    · simp [updForest, hnd, wfForest, hd, hn, hg t ht, hrest]
    · simp [updForest, hnd, wfForest, hn, ht, wf_updForest d hd g hg rest hrest]

theorem wf_insertEntry {α : Type} (f : FileRef α) (role : SpecialRole) :
    ∀ (dirs : List String) (t : DirTree α), wfDir t = true → (∀ d ∈ dirs, d ≠ "") →
      wfDir (insertEntry f role dirs t) = true
  | [], .mk l i lv cs => by
    intro hwf _
    cases role <;> simpa [insertEntry, wfDir] using hwf
  | d :: ds, .mk l i lv cs => by
    intro hwf hds
    show wfForest (updForest d (fun t => insertEntry f role ds t) cs) = true
    exact wf_updForest d (hds d (List.mem_cons_self d ds)) _
      (fun t ht => wf_insertEntry f role ds t ht
        (fun x hx => hds x (List.mem_cons_of_mem d hx)))
      cs (by simpa [wfDir] using hwf)

theorem parsePath_dirs_ne {α : Type} {key : String} {l : α} {e : ParsedEntry α}
    (h : parsePath key l = some e) : ∀ d ∈ e.dirs, d ≠ "" := by
  simp only [parsePath] at h
  generalize hX : splitOnSlash _ = comps at h
  by_cases hany : comps.any List.isEmpty = true
  · rw [if_pos hany] at h
    cases h
  · rw [if_neg hany] at h
    rcases hrev : comps.reverse with _ | ⟨leaf, revDirs⟩
    · simp only [hrev] at h
      cases h
    · simp only [hrev] at h
      injection h with h
      subst h
      intro d hd
      simp only [List.mem_map] at hd
      obtain ⟨c, hc, rfl⟩ := hd
      have hcomps : c ∈ comps := by
        have : comps = revDirs.reverse ++ [leaf] := by
          have := congrArg List.reverse hrev
          simpa using this
        rw [this]
        exact List.mem_append_left _ hc
      have hne : c.isEmpty = false := by
        have hnot : ¬ ∃ x ∈ comps, x.isEmpty = true := by
          rw [← List.any_eq_true]
          exact hany
        rw [Bool.eq_false_iff]
        intro hemp
        exact hnot ⟨c, hcomps, hemp⟩
      intro hmk
      have := congrArg String.data hmk
      simp at this
      rw [this] at hne
      cases hne

theorem buildEntries_dirs {α : Type} :
    ∀ (entries : List (String × α)) (es : List (ParsedEntry α)),
      buildEntries entries = some es → ∀ e ∈ es, ∀ d ∈ e.dirs, d ≠ ""
  | [], es, h => by
    injection h with h
    subst h
    intro e he
    cases he
  | (k, l) :: rest, es, h => by
    rw [buildEntries] at h
    cases hp : parsePath k l with
    | none =>
      rw [hp] at h
      cases h
    | some e0 =>
      rw [hp] at h
      cases hr : buildEntries rest with
      | none =>
        rw [hr] at h
        cases h
      | some es0 =>
        rw [hr] at h
        injection h with h
        subst h
        intro e he
        rcases List.mem_cons.mp he with rfl | he2
        · exact parsePath_dirs_ne hp
        · exact buildEntries_dirs rest es0 hr e he2

theorem wf_foldl_insert {α : Type} :
    ∀ (es : List (ParsedEntry α)) (t : DirTree α), wfDir t = true →
      (∀ e ∈ es, ∀ d ∈ e.dirs, d ≠ "") →
      wfDir (es.foldl (fun t e => insertEntry ⟨e.leafRaw, e.sync, e.loader⟩ e.role e.dirs t) t) = true
  | [], t => fun h _ => h
  | e :: es, t => fun h hall => by
    rw [List.foldl_cons]
    exact wf_foldl_insert es _
      (wf_insertEntry ⟨e.leafRaw, e.sync, e.loader⟩ e.role e.dirs t h
        (hall e (List.mem_cons_self e es)))
      (fun x hx => hall x (List.mem_cons_of_mem e hx))

theorem buildGlobRoutes_fullPaths {α : Type} (entries : List (String × α)) (opts : BuildOptions) :
    allFullPathsOk (buildGlobRoutes entries opts) = true := by
  unfold buildGlobRoutes
  cases hbe : buildEntries entries with
  | none => rfl
  | some es =>
    have hwf : wfDir (buildDirTree es) = true :=
      wf_foldl_insert es emptyDir rfl (buildEntries_dirs entries es hbe)
    have hkids := synthChildren_check (buildDirTree es)
      (opts.segmentGroupOrder.map normalizeGroupName) "./pages" "" hwf
    cases hlay : (buildDirTree es).layoutF with
    | none =>
      simp only [hlay]
      unfold allFullPathsOk
      simp only [Option.map_eq_map, Option.map_some, Option.getD_some]
      rw [List.all_eq_true]
      intro x hx
      obtain ⟨n, hn, rfl⟩ := List.mem_map.mp hx
      exact propagate_check n "" (hkids n hn)
    | some f =>
      simp only [hlay]
      unfold allFullPathsOk
      simp only [Option.map_eq_map, Option.map_some, Option.getD_some]
      rw [List.all_eq_true]
      intro x hx
      obtain ⟨n, hn, rfl⟩ := List.mem_map.mp hx
      rcases List.mem_singleton.mp hn with rfl
      refine propagate_check _ "" ?_
      simp only [checkFullPaths]
      rw [checkForest_ofList]
      simp only [Bool.and_eq_true, List.all_eq_true]
      refine ⟨by simp, ?_⟩
      intro y hy
      exact hkids y hy

/-- C1.  For every node produced by `buildGlobRoutes`, `metadata.fullPath`
satisfies the recursive concatenation rule of spec §3 (a group or layout
node contributes nothing, a non-group node appends `"/" ++ label`, an
index node appends a trailing `/`); in particular, for input files
`add/layout` and `add/index`, the layout node's `fullPath` is `"/add"` and
the index node's `fullPath` is `"/add/"`. -/
theorem c1_fullpath_formula :
    (∀ (α : Type) (entries : List (String × α)) (opts : BuildOptions),
      allFullPathsOk (buildGlobRoutes entries opts) = true)
    ∧ (lookFs (buildGlobRoutes addEntries ⟨[]⟩) "./pages/add/layout").map Meta.fullPath
        = some "/add"
    ∧ (lookFs (buildGlobRoutes addEntries ⟨[]⟩) "./pages/add/index/").map Meta.fullPath
        = some "/add/" :=
  ⟨fun _ entries opts => buildGlobRoutes_fullPaths entries opts, by decide, by decide⟩

end RouteBuilder
